import Mathlib

/-!
Shallow embedding of the StarRocks file-scan layer under verification:
the column-builder family (`be/src/column/column_builder.h`), the ORC
file-stream adapter, the row-group/stripe filter, and the scan loop of
`be/src/exec/vectorized/hdfs_scanner_orc.cpp`.

Machine values are modelled as `Int` (fixed width irrelevant to the
claims), byte buffers as `List Nat`, and `size_t` arithmetic with an
explicit `% 2 ^ 64` where overflow matters.
-/

/-- State of `ColumnBuilder<Type>` (column_builder.h): the data column
`_column`, the parallel `_null_column`, and the aggregate `_has_null`
flag. Cell values are modelled as `Int`; the null column stores one
flag per appended row. -/
structure ColumnBuilder where
  column : List Int
  null_column : List Bool
  has_null : Bool
deriving DecidableEq

/-- `ColumnBuilder::append(const DatumType& value)`: appends
`DATUM_NOT_NULL` to the null column and the value to the data column;
`_has_null` is untouched. -/
def ColumnBuilder.append (b : ColumnBuilder) (value : Int) : ColumnBuilder :=
  { b with null_column := b.null_column ++ [false], column := b.column ++ [value] }

/-- `ColumnBuilder::append(const DatumType& value, bool is_null)`:
ORs `is_null` into `_has_null`, appends the flag and the value. -/
def ColumnBuilder.appendWithNull (b : ColumnBuilder) (value : Int) (is_null : Bool) :
    ColumnBuilder :=
  { column := b.column ++ [value], null_column := b.null_column ++ [is_null],
    has_null := b.has_null || is_null }

/-- `ColumnBuilder::append_null()`: sets `_has_null`, appends
`DATUM_NULL` and a default-valued placeholder (`append_default`,
modelled as `0`). -/
def ColumnBuilder.append_null (b : ColumnBuilder) : ColumnBuilder :=
  { column := b.column ++ [0], null_column := b.null_column ++ [true], has_null := true }

/-- Result of `ColumnBuilder::build(bool is_const)`: a constant-null
column, a constant column, a nullable-wrapped column, or the bare data
column. -/
inductive BuiltColumn where
  | constNull (n : Nat)
  | constCol (data : List Int) (n : Nat)
  | nullable (data : List Int) (nulls : List Bool)
  | plain (data : List Int)
deriving DecidableEq

/-- `ColumnBuilder::build(bool is_const)` (column_builder.h lines
65-77), branch for branch. -/
def ColumnBuilder.build (b : ColumnBuilder) (is_const : Bool) : BuiltColumn :=
  if is_const && b.has_null then .constNull b.column.length
  else if is_const then .constCol b.column b.column.length
  else if b.has_null then .nullable b.column b.null_column
  else .plain b.column

/-- One call in an append history of a `ColumnBuilder`: the one-argument
`append`, the two-argument `append(value, is_null)`, or `append_null`. -/
inductive AppendOp where
  | plainApp (value : Int)
  | withNullApp (value : Int) (is_null : Bool)
  | nullApp
deriving DecidableEq

/-- Dispatches one `AppendOp` to the corresponding builder member. -/
def applyAppendOp (b : ColumnBuilder) : AppendOp → ColumnBuilder
  | .plainApp v => b.append v
  | .withNullApp v is_null => b.appendWithNull v is_null
  | .nullApp => b.append_null

/-- The data value an `AppendOp` writes into the data column
(`append_null` writes the default placeholder `0`). -/
def AppendOp.value : AppendOp → Int
  | .plainApp v => v
  | .withNullApp v _ => v
  | .nullApp => 0

/-- The null flag an `AppendOp` writes into the null column. -/
def AppendOp.isNull : AppendOp → Bool
  | .plainApp _ => false
  | .withNullApp _ b => b
  | .nullApp => true

/-- A freshly constructed builder: empty columns, `_has_null = false`
(`ColumnBuilder::ColumnBuilder(int32_t chunk_size)`; `reserve` does not
change contents). -/
def emptyBuilder : ColumnBuilder := ⟨[], [], false⟩

/-- Runs an append history against a fresh builder. -/
def runAppendOps (ops : List AppendOp) : ColumnBuilder :=
  ops.foldl applyAppendOp emptyBuilder

/-- Resizes a vector the way `std::vector::resize(n)` does: truncate to
`n` elements, or extend with value-initialized elements `v`. -/
def listResize {α : Type} (l : List α) (n : Nat) (v : α) : List α :=
  if n ≤ l.length then l.take n else l ++ List.replicate (n - l.length) v

/-- Subtraction on `size_t`: `a - n` computed modulo `2 ^ 64`, wrapping
around when `n > a`. -/
def sizeTSub (a n : Nat) : Nat :=
  (a + (2 ^ 64 - n % 2 ^ 64)) % 2 ^ 64

/-- State of `NullableBinaryColumnBuilder` (column_builder.h lines
92-170): the binary data column is a byte buffer `bytes` plus an
`offsets` array; `nulls` is the null column's data and `has_null` the
aggregate flag. Bytes are modelled as `Nat`. -/
structure NullableBinaryColumnBuilder where
  bytes : List Nat
  offsets : List Nat
  nulls : List Bool
  has_null : Bool
deriving DecidableEq

/-- A freshly constructed `NullableBinaryColumnBuilder()`. -/
def nbbInit : NullableBinaryColumnBuilder := ⟨[], [], [], false⟩

/-- `NullableBinaryColumnBuilder::resize(num_rows, bytes_size)`:
reserves (does not change) the byte buffer, makes uninitialized room of
`num_rows + 1` entries for the offsets (`raw::make_room`; the arbitrary
prior contents are the `room` argument), writes `offsets[0] = 0`, and
zero-resizes the null column to `num_rows`. -/
def NullableBinaryColumnBuilder.resize (b : NullableBinaryColumnBuilder)
    (num_rows bytes_size : Nat) (room : List Nat) : NullableBinaryColumnBuilder :=
  { b with offsets := room.set 0 0, nulls := listResize b.nulls num_rows false }

/-- `NullableBinaryColumnBuilder::set_null(i)`: sets `_has_null`,
commits `offsets[i + 1] = bytes.size()` and marks `nulls[i] = 1`. -/
def NullableBinaryColumnBuilder.set_null (b : NullableBinaryColumnBuilder) (i : Nat) :
    NullableBinaryColumnBuilder :=
  { b with offsets := b.offsets.set (i + 1) b.bytes.length,
           nulls := b.nulls.set i true, has_null := true }

/-- `NullableBinaryColumnBuilder::append_empty(i)`: commits
`offsets[i + 1] = bytes.size()` without writing bytes. -/
def NullableBinaryColumnBuilder.append_empty (b : NullableBinaryColumnBuilder) (i : Nat) :
    NullableBinaryColumnBuilder :=
  { b with offsets := b.offsets.set (i + 1) b.bytes.length }

/-- `NullableBinaryColumnBuilder::append(begin, end, i)`: inserts the
value's bytes at the end of the buffer, then commits
`offsets[i + 1]` to the new buffer size. -/
def NullableBinaryColumnBuilder.append (b : NullableBinaryColumnBuilder)
    (data : List Nat) (i : Nat) : NullableBinaryColumnBuilder :=
  { b with bytes := b.bytes ++ data,
           offsets := b.offsets.set (i + 1) (b.bytes ++ data).length }

/-- The source's `append_partial(begin, end)` member: inserts bytes at
the end of the buffer without touching the offsets. -/
def NullableBinaryColumnBuilder.append_part (b : NullableBinaryColumnBuilder)
    (data : List Nat) : NullableBinaryColumnBuilder :=
  { b with bytes := b.bytes ++ data }

/-- `NullableBinaryColumnBuilder::append_complete(i)`: commits
`offsets[i + 1] = bytes.size()`. -/
def NullableBinaryColumnBuilder.append_complete (b : NullableBinaryColumnBuilder)
    (i : Nat) : NullableBinaryColumnBuilder :=
  { b with offsets := b.offsets.set (i + 1) b.bytes.length }

/-- `NullableBinaryColumnBuilder::rewind(n)`:
`bytes.resize(bytes.size() - n)` where the size is computed on the
unsigned `size_t` type, so it wraps around when `n > bytes.size()`. -/
def NullableBinaryColumnBuilder.rewind (b : NullableBinaryColumnBuilder)
    (n : Nat) : NullableBinaryColumnBuilder :=
  { b with bytes := listResize b.bytes (sizeTSub b.bytes.length n) 0 }

/-- `NullableBinaryColumnBuilder::set_has_null(has_null)`: plain
assignment of the aggregate flag (not a logical OR). -/
def NullableBinaryColumnBuilder.set_has_null (b : NullableBinaryColumnBuilder)
    (v : Bool) : NullableBinaryColumnBuilder :=
  { b with has_null := v }

/-- One public member-function call on a `NullableBinaryColumnBuilder`. -/
inductive NBBOp where
  | resizeOp (num_rows bytes_size : Nat) (room : List Nat)
  | setNullOp (i : Nat)
  | appendEmptyOp (i : Nat)
  | appendOp (data : List Nat) (i : Nat)
  | appendPartOp (data : List Nat)
  | appendCompleteOp (i : Nat)
  | rewindOp (n : Nat)
  | setHasNullOp (v : Bool)
deriving DecidableEq

/-- Dispatches one `NBBOp` to the corresponding builder member. -/
def applyNBBOp (b : NullableBinaryColumnBuilder) : NBBOp → NullableBinaryColumnBuilder
  | .resizeOp n k room => b.resize n k room
  | .setNullOp i => b.set_null i
  | .appendEmptyOp i => b.append_empty i
  | .appendOp data i => b.append data i
  | .appendPartOp data => b.append_part data
  | .appendCompleteOp i => b.append_complete i
  | .rewindOp n => b.rewind n
  | .setHasNullOp v => b.set_has_null v

/-- Discriminates the `set_has_null` member among the builder
operations. -/
def NBBOp.isSetHasNull : NBBOp → Bool
  | .setHasNullOp _ => true
  | _ => false

/-- A builder state whose aggregate null flag has already become true. -/
def nbbWithNull : NullableBinaryColumnBuilder := ⟨[], [0], [], true⟩

/-- One finalization of a row of the variable-length builder: exactly
one of `set_null(i)`, `append_empty(i)`, `append(begin, end, i)`, or a
sequence of `append_partial` calls ending in `append_complete(i)`. -/
inductive RowOp where
  | setNullRow
  | appendEmptyRow
  | appendRow (data : List Nat)
  | piecesRow (frags : List (List Nat))
deriving DecidableEq

/-- Runs one row finalization at row index `i`. -/
def applyRowOp (b : NullableBinaryColumnBuilder) (i : Nat) : RowOp → NullableBinaryColumnBuilder
  | .setNullRow => b.set_null i
  | .appendEmptyRow => b.append_empty i
  | .appendRow data => b.append data i
  | .piecesRow frags =>
    (frags.foldl (fun t f => t.append_part f) b).append_complete i

/-- Runs the row finalizations for rows `i, i + 1, ...` in order. -/
def runRows (b : NullableBinaryColumnBuilder) (i : Nat) : List RowOp → NullableBinaryColumnBuilder
  | [] => b
  | op :: rest => runRows (applyRowOp b i op) (i + 1) rest

/-- The builder state after `resize(n, k)` on a fresh builder followed
by one finalization per row `0, ..., n - 1` in order (`room` is the
uninitialized content `raw::make_room` leaves in the offsets array). -/
def c9Final (n k : Nat) (room : List Nat) (ops : List RowOp) : NullableBinaryColumnBuilder :=
  runRows (nbbInit.resize n k room) 0 ops

/-- The statistics record an `ORCHdfsFileStream` updates: the I/O
operation count and the byte count (`HdfsScanStats::io_count` and
`bytes_read`). -/
structure HdfsScanStats where
  io_count : Nat
  bytes_read : Nat
deriving DecidableEq

/-- State of `ORCHdfsFileStream` (hdfs_scanner_orc.cpp lines 15-100):
the underlying random-access file (modelled as its byte contents at
every offset), the stream length, and the single-slot cache window
`_cache_buffer` starting at `_cache_offset`. -/
structure ORCHdfsFileStream where
  fileData : Nat → Nat
  streamLength : Nat
  cache_buffer : List Nat
  cache_offset : Nat

/-- `ORCHdfsFileStream::canUseCacheBuffer(offset, length)` (lines
60-66): the cache is non-empty and `[offset, offset + length)` lies
inside `[_cache_offset, _cache_offset + _cache_buffer.size())`. -/
def canUseCacheBuffer (fs : ORCHdfsFileStream) (offset length : Nat) : Bool :=
  (fs.cache_buffer.length != 0) && (fs.cache_offset ≤ offset) &&
    (offset + length ≤ fs.cache_offset + fs.cache_buffer.length)

/-- `ORCHdfsFileStream::doRead(buf, length, offset)` (lines 77-90) on
the success path: bumps `io_count`, reads `length` bytes at `offset`
from the file, and adds `length` to `bytes_read`. -/
def doRead (fs : ORCHdfsFileStream) (stats : HdfsScanStats) (length offset : Nat) :
    List Nat × HdfsScanStats :=
  ((List.range length).map (fun i => fs.fileData (offset + i)),
   { io_count := stats.io_count + 1, bytes_read := stats.bytes_read + length })

/-- `ORCHdfsFileStream::read(buf, length, offset)` (lines 68-75): copy
out of the cache window when the requested range is fully contained
(`memcpy` from index `offset - _cache_offset`), else a direct
`doRead`. -/
def ORCHdfsFileStream.read (fs : ORCHdfsFileStream) (stats : HdfsScanStats)
    (length offset : Nat) : List Nat × HdfsScanStats :=
  if canUseCacheBuffer fs offset length then
    ((List.range length).map (fun i => fs.cache_buffer.getD (offset - fs.cache_offset + i) 0),
     stats)
  else doRead fs stats length offset

/-- The property the spec asserts of one `read` call's statistics: the
I/O count goes up by one and the byte count by the read length. -/
def recordsStats (before after : HdfsScanStats) (length : Nat) : Prop :=
  after.io_count = before.io_count + 1 ∧ after.bytes_read = before.bytes_read + length

/-- A concrete stream whose cache window holds bytes `[7, 8, 9]` at
offset 0 over a zero file. -/
def cexStream : ORCHdfsFileStream :=
  { fileData := fun _ => 0, streamLength := 3, cache_buffer := [7, 8, 9], cache_offset := 0 }

/-- A cell value in the single-row min/max reference chunks built by
`OrcRowReaderFilter::filterMinMax`. -/
inductive Val where
  | vnull
  | vint (n : Int)
deriving DecidableEq

/-- Outcome of resolving a slot's per-row-group statistic when the
slot's column exists in the file (`get_column_id_by_name` returned a
non-negative index): either the row index has no entry for the column
or `decode_min_max_value` failed (`missing`), or the min and max were
decoded (`decoded`). -/
inductive StatResolution where
  | missing
  | decoded (mn mx : Val)
deriving DecidableEq

/-- One slot of the min/max tuple descriptor as `filterMinMax` sees it:
`colStat = some r` when the column exists in the file with resolution
`r`; `colStat = none` when it does not, in which case `partValue` is
the partition-column lookup result (`some v` when the slot is a
declared partition column with constant value `v`). -/
structure MinMaxSlot where
  colStat : Option StatResolution
  partValue : Option Val

/-- The loop of `filterMinMax` (hdfs_scanner_orc.cpp lines 189-227)
that fills `min_chunk` and `max_chunk`: per slot, a decoded statistic
contributes its min/max, a missing statistic aborts the whole filter
(the function returns false, modelled as `none`), a slot absent from
the file contributes its partition constant to both rows, or null to
both rows when it is not a partition column. -/
def buildMinMaxRows : List MinMaxSlot → Option (List Val × List Val)
  | [] => some ([], [])
  | s :: rest =>
    match s.colStat with
    | some .missing => none
    | some (.decoded mn mx) =>
      match buildMinMaxRows rest with
      | none => none
      | some (ms, xs) => some (mn :: ms, mx :: xs)
    | none =>
      match s.partValue with
      | none =>
        match buildMinMaxRows rest with
        | none => none
        | some (ms, xs) => some (Val.vnull :: ms, Val.vnull :: xs)
      | some v =>
        match buildMinMaxRows rest with
        | none => none
        | some (ms, xs) => some (v :: ms, v :: xs)

/-- `OrcRowReaderFilter::filterMinMax` (lines 183-242). A min/max
conjunct is modelled as the external expression evaluator's result: a
function from the single reference row to the `int8` value read back by
`get(0).get_int8()`. The row group is filtered (skipped) when some
conjunct evaluates to `0` on both the all-mins row and the all-maxes
row; a failed statistics resolution returns false (do not skip). -/
def filterMinMax (slots : List MinMaxSlot) (preds : List (List Val → Int)) : Bool :=
  match buildMinMaxRows slots with
  | none => false
  | some (minRow, maxRow) =>
    preds.any (fun p => (p minRow == 0) && (p maxRow == 0))

/-- `OrcRowReaderFilter::filterOnPickRowGroup` (lines 243-253): runs
`filterMinMax` only when `_scanner_params.min_max_tuple_desc` is
non-null. -/
def filterOnPickRowGroup (hasMinMaxTupleDesc : Bool) (slots : List MinMaxSlot)
    (preds : List (List Val → Int)) : Bool :=
  if hasMinMaxTupleDesc then filterMinMax slots preds else false

/-- A min/max conjunct that evaluates to logical false on every row. -/
def predAlwaysFalse : List Val → Int := fun _ => 0

/-- A min/max conjunct that evaluates to logical true on every row. -/
def predAlwaysTrue : List Val → Int := fun _ => 1

/-- `remove_trailing_spaces(s, size)` (hdfs_scanner_orc.cpp lines
257-260): drops the trailing `' '` characters of a char-typed
dictionary value. -/
def remove_trailing_spaces (s : List Char) : List Char :=
  (s.reverse.dropWhile (fun c => c == ' ')).reverse

/-- One entry of `_use_dict_filter_slots` as
`filterOnPickStringDictionary` sees it for the current stripe: the
column's decoded dictionary in this stripe (`none` when the stripe's
`sdicts` has no entry for the column, i.e. the column is not
dictionary-encoded here), whether the slot's type is `TYPE_CHAR`, and
the slot's conjuncts modelled as the external evaluator's per-row
verdict on a dictionary-value cell (`none` is the trailing null). -/
structure DictFilterSlot where
  dict : Option (List (List Char))
  isChar : Bool
  pred : Option (List Char) → Bool

/-- The single-column chunk of dictionary values
`filterOnPickStringDictionary` builds: each distinct dictionary value
(trailing spaces stripped for char slots) followed by one trailing
null. -/
def dictValueChunk (isChar : Bool) (d : List (List Char)) : List (Option (List Char)) :=
  d.map (fun v => some (if isChar then remove_trailing_spaces v else v)) ++ [none]

/-- `ExecNode::eval_conjuncts` on the dictionary-value chunk: keeps the
rows the conjuncts accept. -/
def evalConjunctsFilter (pred : Option (List Char) → Bool)
    (rows : List (Option (List Char))) : List (Option (List Char)) :=
  rows.filter pred

/-- `OrcRowReaderFilter::filterOnPickStringDictionary` (lines 262-375):
the stripe is skipped (returns true) when some qualifying slot — one
whose column is dictionary-encoded in this stripe with
`dictionaryOffset.size()` (= cardinality + 1) not exceeding the chunk
size — has zero surviving rows after evaluating its conjuncts over the
dictionary-value chunk. Slots without a dictionary or with a too-large
dictionary are passed over. -/
def filterOnPickStringDictionary (chunk_size : Nat) (slots : List DictFilterSlot) : Bool :=
  slots.any (fun s =>
    match s.dict with
    | none => false
    | some d =>
      if chunk_size < d.length + 1 then false
      else (evalConjunctsFilter s.pred (dictValueChunk s.isChar d)).length == 0)

/-- One assigned scan range `THdfsScanRange`: the half-open byte range
`[offset, offset + length)` of the file this scan instance covers. -/
structure THdfsScanRange where
  offset : Nat
  length : Nat
deriving DecidableEq

/-- The contents of `_scan_ranges` (constructor, lines 166-168): each
range inserted as the pair (key = `offset + length`, value =
`offset`). -/
def scanRangeEntries (ranges : List THdfsScanRange) : List (Nat × Nat) :=
  ranges.map (fun r => (r.offset + r.length, r.offset))

/-- One step of a `std::map::upper_bound` scan: keeps the entry with
the smallest key strictly greater than `off`, preferring the earlier
entry on equal keys (`std::map::insert` keeps the first entry per
key). -/
def ubStep (off : Nat) (acc : Option (Nat × Nat)) (e : Nat × Nat) : Option (Nat × Nat) :=
  if off < e.1 then
    match acc with
    | none => some e
    | some b => if e.1 < b.1 then some e else some b
  else acc

/-- `_scan_ranges.upper_bound(offset)`: the entry with the least key
strictly greater than `offset`, if any. -/
def mapUpperBound (entries : List (Nat × Nat)) (off : Nat) : Option (Nat × Nat) :=
  entries.foldl (ubStep off) none

/-- `OrcRowReaderFilter::filterOnOpeningStripe` (lines 171-181): looks
up the first range whose end exceeds the stripe's starting offset and
keeps the stripe (returns false) exactly when that range also starts
at or before the offset; otherwise the stripe is skipped (returns
true). -/
def filterOnOpeningStripe (ranges : List THdfsScanRange) (off : Nat) : Bool :=
  match mapUpperBound (scanRangeEntries ranges) off with
  | some e => if e.2 ≤ off ∧ off < e.1 then false else true
  | none => true

/-- Containment of a byte offset in a scan range's half-open interval. -/
def inScanRange (r : THdfsScanRange) (off : Nat) : Prop :=
  r.offset ≤ off ∧ off < r.offset + r.length

/-- Two scan ranges are non-overlapping: no byte offset lies in both. -/
def rangesDisjoint (r1 r2 : THdfsScanRange) : Prop :=
  ∀ x, ¬ (inScanRange r1 x ∧ inScanRange r2 x)

/-- A slot identifier (`SlotId`). -/
abbrev SlotId := Nat

/-- A chunk as `do_get_next` sees it: the ordered list of
(slot id, column) pairs; the list order is the chunk's column order and
the slot ids are the keys of `get_slot_id_to_index_map`. Column
contents are modelled as `List Int`. -/
abbrev ChunkModel := List (SlotId × List Int)

/-- `Chunk::get_column_by_slot_id`: the column stored under a slot id
(first match; a chunk holds each slot id once). -/
def getColumnBySlotId (c : ChunkModel) (s : SlotId) : List Int :=
  match c.find? (fun p => p.1 == s) with
  | some p => p.2
  | none => []

/-- Replacing the column stored under a slot id, leaving the chunk's
column order untouched (the effect `Column::swap_column` has on the
owning chunk). -/
def setColumnBySlotId (c : ChunkModel) (s : SlotId) (v : List Int) : ChunkModel :=
  c.map (fun p => if p.1 == s then (p.1, v) else p)

/-- One iteration of the `convert_to_output` loop (hdfs_scanner_orc.cpp
lines 465-470): `swap_column` exchanges the column stored under slot
`s` between the caller's chunk and the freshly read chunk. -/
def swapStep (oc : ChunkModel × ChunkModel) (s : SlotId) : ChunkModel × ChunkModel :=
  (setColumnBySlotId oc.1 s (getColumnBySlotId oc.2 s),
   setColumnBySlotId oc.2 s (getColumnBySlotId oc.1 s))

/-- The `convert_to_output` pass: iterates the swap over the caller
chunk's slot ids in the (arbitrary) enumeration order of its
slot-id-to-index map. The first component is the caller's chunk
afterward — the scanner's output. -/
def convert_to_output (out ck : ChunkModel) (order : List SlotId) :
    ChunkModel × ChunkModel :=
  order.foldl swapStep (out, ck)

/-- One iteration of the retry loop of `HdfsOrcScanner::do_get_next`
(lines 473-558), abstracted over the external ORC reader: a row-group
read that survives predicate filtering with `surviving` rows
(`chunk_size` after `eval_conjuncts_into_filter` and `ck->filter`), the
reader's end-of-file, or a reader error. -/
inductive ReadEvent where
  | rgRead (surviving : Nat)
  | eofEv
  | errEv
deriving DecidableEq

/-- The status `do_get_next` returns to the caller for one `get_next`
call: an OK chunk with its row count, end-of-file, or an error. -/
inductive GetNextResult where
  | okChunk (rows : Nat)
  | eofRes
  | errRes
deriving DecidableEq

/-- The retry loop of `HdfsOrcScanner::do_get_next` over the stream of
row-group read outcomes. Without a lazy-load context the chunk is
emitted directly (lines 531-534); with one, a zero-surviving-row group
loops back to the next row-group position (lines 536-539), and
otherwise the lazy columns are materialized and the merged chunk
emitted. The second component collects the surviving row counts of the
row groups for which lazy materialization was triggered. -/
def do_get_next (hasLazy : Bool) : List ReadEvent → GetNextResult × List Nat
  | [] => (.errRes, [])
  | .eofEv :: _ => (.eofRes, [])
  | .errEv :: _ => (.errRes, [])
  | .rgRead surviving :: rest =>
    if hasLazy then
      if surviving = 0 then do_get_next hasLazy rest
      else (.okChunk surviving, [surviving])
    else (.okChunk surviving, [])

lemma foldl_applyAppendOp_column (ops : List AppendOp) (b : ColumnBuilder) :
    (ops.foldl applyAppendOp b).column = b.column ++ ops.map AppendOp.value := by
  induction ops generalizing b with
  | nil => simp
  | cons op rest ih =>
    cases op <;>
      simp [applyAppendOp, ColumnBuilder.append, ColumnBuilder.appendWithNull,
        ColumnBuilder.append_null, ih, AppendOp.value]

lemma foldl_applyAppendOp_null_column (ops : List AppendOp) (b : ColumnBuilder) :
    (ops.foldl applyAppendOp b).null_column = b.null_column ++ ops.map AppendOp.isNull := by
  induction ops generalizing b with
  | nil => simp
  | cons op rest ih =>
    cases op <;>
      simp [applyAppendOp, ColumnBuilder.append, ColumnBuilder.appendWithNull,
        ColumnBuilder.append_null, ih, AppendOp.isNull]

lemma foldl_applyAppendOp_has_null (ops : List AppendOp) (b : ColumnBuilder) :
    (ops.foldl applyAppendOp b).has_null = (b.has_null || ops.any AppendOp.isNull) := by
  induction ops generalizing b with
  | nil => simp
  | cons op rest ih =>
    cases op with
    | plainApp v =>
      simp [applyAppendOp, ColumnBuilder.append, ih, AppendOp.isNull]
    | withNullApp v is_null =>
      simp [applyAppendOp, ColumnBuilder.appendWithNull, ih, AppendOp.isNull, Bool.or_assoc]
    | nullApp =>
      simp [applyAppendOp, ColumnBuilder.append_null, ih, AppendOp.isNull]

/-- C7: for every sequence of `append`/`append_null` calls, `build(false)`
returns a column whose length equals the number of append calls and whose
null bitmap matches exactly the `is_null`/`append_null` history —
nullable-wrapped when any null was appended, the bare data column
otherwise. -/
theorem c7_build_false_matches_history (ops : List AppendOp) :
    (runAppendOps ops).column.length = ops.length ∧
    (runAppendOps ops).build false =
      (if ops.any AppendOp.isNull then
        BuiltColumn.nullable (ops.map AppendOp.value) (ops.map AppendOp.isNull)
      else BuiltColumn.plain (ops.map AppendOp.value)) := by
  have hc := foldl_applyAppendOp_column ops emptyBuilder
  have hn := foldl_applyAppendOp_null_column ops emptyBuilder
  have hh := foldl_applyAppendOp_has_null ops emptyBuilder
  simp only [emptyBuilder] at hc hn hh
  constructor
  · simp [runAppendOps, emptyBuilder, hc]
  · by_cases h : ops.any AppendOp.isNull <;>
      simp [runAppendOps, ColumnBuilder.build, emptyBuilder, hc, hn, hh, h]

lemma getD_set_self (l : List Nat) (i v : Nat) (h : i < l.length) :
    (l.set i v).getD i 0 = v := by
  simp [List.getD_eq_getElem?_getD, List.getElem?_set_self h]

lemma getD_set_ne (l : List Nat) (i j v : Nat) (h : i ≠ j) :
    (l.set i v).getD j 0 = l.getD j 0 := by
  simp [List.getD_eq_getElem?_getD, List.getElem?_set_ne h]

/-- C8 counterexample: the claim that the aggregate null flag, once
true, stays true under every subsequent builder operation fails on
`NullableBinaryColumnBuilder::set_has_null`, which assigns its argument
directly: applying `set_has_null(false)` to a builder whose flag is
true resets the flag to false. -/
theorem c8_counterexample :
    nbbWithNull.has_null = true ∧
    (applyNBBOp nbbWithNull (NBBOp.setHasNullOp false)).has_null = false :=
  ⟨rfl, rfl⟩

/-- C8 (amended): the aggregate null flag is monotone under every
`ColumnBuilder` append operation, and under every
`NullableBinaryColumnBuilder` operation other than `set_has_null`
(which overwrites the flag with its argument). -/
theorem c8_has_null_monotone (b : ColumnBuilder) (op : AppendOp)
    (nb : NullableBinaryColumnBuilder) (nop : NBBOp)
    (hop : nop.isSetHasNull = false)
    (hb : b.has_null = true) (hnb : nb.has_null = true) :
    (applyAppendOp b op).has_null = true ∧ (applyNBBOp nb nop).has_null = true := by
  constructor
  · cases op <;>
      simp [applyAppendOp, ColumnBuilder.append, ColumnBuilder.appendWithNull,
        ColumnBuilder.append_null, hb]
  · cases nop <;>
      simp_all [applyNBBOp, NBBOp.isSetHasNull, NullableBinaryColumnBuilder.resize,
        NullableBinaryColumnBuilder.set_null, NullableBinaryColumnBuilder.append_empty,
        NullableBinaryColumnBuilder.append, NullableBinaryColumnBuilder.append_part,
        NullableBinaryColumnBuilder.append_complete, NullableBinaryColumnBuilder.rewind]

/-- C8 witness: the monotonicity theorem applied at concrete inputs
with every hypothesis discharged. -/
theorem c8_has_null_monotone_witness :
    (applyAppendOp ⟨[], [], true⟩ (AppendOp.plainApp 7)).has_null = true ∧
    (applyNBBOp nbbWithNull (NBBOp.rewindOp 0)).has_null = true :=
  c8_has_null_monotone ⟨[], [], true⟩ (AppendOp.plainApp 7) nbbWithNull
    (NBBOp.rewindOp 0) rfl rfl rfl

/-- C10: `rewind(n)` under its unstated precondition `n ≤ bytes.size()`
(and the realizable-buffer bound `bytes.size() < 2 ^ 64`): it removes
exactly the last `n` bytes — the result is the unchanged prefix of
length `bytes.size() - n` — and the offsets, null data and null flag
are untouched.  (For `n` larger than the buffer the modelled `size_t`
subtraction wraps around; the precondition makes that branch
unreachable.) -/
theorem c10_rewind_removes_last_n (b : NullableBinaryColumnBuilder) (n : Nat)
    (hn : n ≤ b.bytes.length) (hword : b.bytes.length < 2 ^ 64) :
    (b.rewind n).bytes = b.bytes.take (b.bytes.length - n) ∧
    (b.rewind n).bytes.length = b.bytes.length - n ∧
    (b.rewind n).offsets = b.offsets ∧
    (b.rewind n).nulls = b.nulls ∧
    (b.rewind n).has_null = b.has_null := by
  have hmod : n % 2 ^ 64 = n := Nat.mod_eq_of_lt (lt_of_le_of_lt hn hword)
  have hsub : sizeTSub b.bytes.length n = b.bytes.length - n := by
    unfold sizeTSub
    rw [hmod]
    have h1 : b.bytes.length + (2 ^ 64 - n) = (b.bytes.length - n) + 2 ^ 64 := by omega
    rw [h1, Nat.add_mod_right]
    exact Nat.mod_eq_of_lt (by omega)
  have hres : (b.rewind n).bytes = b.bytes.take (b.bytes.length - n) := by
    unfold NullableBinaryColumnBuilder.rewind listResize
    rw [hsub]
    simp [Nat.sub_le]
  refine ⟨hres, ?_, rfl, rfl, rfl⟩
  rw [hres]
  simp [Nat.sub_le]

/-- C10 witness: the rewind theorem applied to a concrete builder with
a three-byte buffer and `n = 2`. -/
theorem c10_rewind_witness :
    (NullableBinaryColumnBuilder.rewind ⟨[1, 2, 3], [9], [], false⟩ 2).bytes =
        [1, 2, 3].take 1 ∧
    (NullableBinaryColumnBuilder.rewind ⟨[1, 2, 3], [9], [], false⟩ 2).bytes.length = 1 ∧
    (NullableBinaryColumnBuilder.rewind ⟨[1, 2, 3], [9], [], false⟩ 2).offsets = [9] ∧
    (NullableBinaryColumnBuilder.rewind ⟨[1, 2, 3], [9], [], false⟩ 2).nulls = [] ∧
    (NullableBinaryColumnBuilder.rewind ⟨[1, 2, 3], [9], [], false⟩ 2).has_null = false :=
  c10_rewind_removes_last_n ⟨[1, 2, 3], [9], [], false⟩ 2 (by decide) (by decide)

lemma foldl_append_part (frags : List (List Nat)) (b : NullableBinaryColumnBuilder) :
    frags.foldl (fun t f => t.append_part f) b =
      { b with bytes := b.bytes ++ frags.flatten } := by
  induction frags generalizing b with
  | nil => simp
  | cons f rest ih =>
    rw [List.foldl_cons, ih]
    simp [NullableBinaryColumnBuilder.append_part]

lemma applyRowOp_bytes_offsets (b : NullableBinaryColumnBuilder) (i : Nat) (op : RowOp) :
    ∃ extra : List Nat,
      (applyRowOp b i op).bytes = b.bytes ++ extra ∧
      (applyRowOp b i op).offsets = b.offsets.set (i + 1) (b.bytes.length + extra.length) := by
  cases op with
  | setNullRow =>
    exact ⟨[], by simp [applyRowOp, NullableBinaryColumnBuilder.set_null]⟩
  | appendEmptyRow =>
    exact ⟨[], by simp [applyRowOp, NullableBinaryColumnBuilder.append_empty]⟩
  | appendRow data =>
    exact ⟨data, by simp [applyRowOp, NullableBinaryColumnBuilder.append]⟩
  | piecesRow frags =>
    refine ⟨frags.flatten, ?_⟩
    simp [applyRowOp, foldl_append_part, NullableBinaryColumnBuilder.append_complete]

lemma runRows_offsets_spec (ops : List RowOp) (b : NullableBinaryColumnBuilder) (i : Nat)
    (hcur : b.offsets.getD i 0 = b.bytes.length)
    (hlen : i + ops.length < b.offsets.length) :
    (runRows b i ops).offsets.length = b.offsets.length ∧
    (runRows b i ops).offsets.getD (i + ops.length) 0 = (runRows b i ops).bytes.length ∧
    (∀ j, j ≤ i → (runRows b i ops).offsets.getD j 0 = b.offsets.getD j 0) ∧
    (∀ j, i ≤ j → j + 1 ≤ i + ops.length →
      (runRows b i ops).offsets.getD j 0 ≤ (runRows b i ops).offsets.getD (j + 1) 0) := by
  induction ops generalizing b i with
  | nil =>
    refine ⟨rfl, by simpa using hcur, fun j _ => rfl, fun j hj hj' => ?_⟩
    simp only [List.length_nil, Nat.add_zero] at hj'
    omega
  | cons op rest ih =>
    obtain ⟨extra, hbytes, hoffs⟩ := applyRowOp_bytes_offsets b i op
    have hi1 : i + 1 < b.offsets.length := by
      simp only [List.length_cons] at hlen; omega
    have hlen' : (applyRowOp b i op).offsets.length = b.offsets.length := by
      rw [hoffs]; simp
    have hcur' : (applyRowOp b i op).offsets.getD (i + 1) 0 = (applyRowOp b i op).bytes.length := by
      rw [hoffs, hbytes, getD_set_self _ _ _ hi1]
      simp
    have hlen'' : (i + 1) + rest.length < (applyRowOp b i op).offsets.length := by
      rw [hlen']
      simp only [List.length_cons] at hlen; omega
    obtain ⟨L1, L2, L3, L4⟩ := ih (applyRowOp b i op) (i + 1) hcur' hlen''
    have hrun : runRows b i (op :: rest) = runRows (applyRowOp b i op) (i + 1) rest := rfl
    refine ⟨by rw [hrun, L1, hlen'], ?_, ?_, ?_⟩
    · rw [hrun]
      have hidx : i + (op :: rest).length = (i + 1) + rest.length := by
        simp only [List.length_cons]; omega
      rw [hidx]
      exact L2
    · intro j hj
      rw [hrun, L3 j (by omega), hoffs, getD_set_ne b.offsets (i + 1) j _ (by omega)]
    · intro j hj hj'
      rw [hrun]
      rcases Nat.eq_or_lt_of_le hj with hji | hji
      · subst hji
        have e1 : (runRows (applyRowOp b i op) (i + 1) rest).offsets.getD i 0 =
            (applyRowOp b i op).offsets.getD i 0 := L3 i (by omega)
        have e2 : (runRows (applyRowOp b i op) (i + 1) rest).offsets.getD (i + 1) 0 =
            (applyRowOp b i op).offsets.getD (i + 1) 0 := L3 (i + 1) (by omega)
        rw [e1, e2, hoffs, getD_set_ne b.offsets (i + 1) i _ (by omega),
          getD_set_self _ _ _ hi1, hcur]
        simp
      · exact L4 j (by omega) (by simp only [List.length_cons] at hj' ⊢; omega)

/-- C9: `resize(n, k)` on a fresh variable-length builder followed by,
for every row `i` in order, exactly one finalization among
`set_null(i)`, `append_empty(i)`, `append(begin, end, i)`, or a
sequence of `append_partial` calls ending in `append_complete(i)`,
yields an offsets array of length `n + 1` with `offsets[0] = 0` that is
non-decreasing and whose final entry equals the byte-buffer length.
`room` is the arbitrary uninitialized content `raw::make_room` leaves
in the offsets array. -/
theorem c9_offsets_wellformed (n k : Nat) (room : List Nat) (ops : List RowOp)
    (hroom : room.length = n + 1) (hops : ops.length = n) :
    (c9Final n k room ops).offsets.length = n + 1 ∧
    (c9Final n k room ops).offsets.getD 0 0 = 0 ∧
    (∀ j, j + 1 ≤ n →
      (c9Final n k room ops).offsets.getD j 0 ≤ (c9Final n k room ops).offsets.getD (j + 1) 0) ∧
    (c9Final n k room ops).offsets.getD n 0 = (c9Final n k room ops).bytes.length := by
  have hbase : (nbbInit.resize n k room).offsets = room.set 0 0 := rfl
  have hbytes : (nbbInit.resize n k room).bytes = [] := rfl
  have hlen0 : (nbbInit.resize n k room).offsets.length = n + 1 := by
    rw [hbase]; simp [hroom]
  have hcur : (nbbInit.resize n k room).offsets.getD 0 0 =
      (nbbInit.resize n k room).bytes.length := by
    rw [hbase, hbytes, getD_set_self _ _ _ (by simp [hroom])]
    rfl
  have hlen : 0 + ops.length < (nbbInit.resize n k room).offsets.length := by
    rw [hlen0]; omega
  obtain ⟨L1, L2, L3, L4⟩ := runRows_offsets_spec ops (nbbInit.resize n k room) 0 hcur hlen
  have hfin : c9Final n k room ops = runRows (nbbInit.resize n k room) 0 ops := rfl
  refine ⟨by rw [hfin, L1, hlen0], ?_, ?_, ?_⟩
  · rw [hfin, L3 0 (by omega), hbase, getD_set_self _ _ _ (by simp [hroom])]
  · intro j hj
    rw [hfin]
    exact L4 j (by omega) (by omega)
  · rw [hfin]
    have hL2 := L2
    rw [Nat.zero_add, hops] at hL2
    exact hL2

/-- C9 witness: the offsets well-formedness theorem applied to a
two-row builder whose first row is a four-byte value built from two
fragments and whose second row is null, with nonzero uninitialized
room contents. -/
theorem c9_offsets_wellformed_witness :
    (c9Final 2 8 [55, 66, 77] [RowOp.piecesRow [[1, 2], [3, 4]], RowOp.setNullRow]).offsets.length
        = 3 ∧
    (c9Final 2 8 [55, 66, 77] [RowOp.piecesRow [[1, 2], [3, 4]], RowOp.setNullRow]).offsets.getD 0 0
        = 0 ∧
    ((c9Final 2 8 [55, 66, 77] [RowOp.piecesRow [[1, 2], [3, 4]], RowOp.setNullRow]).offsets.getD 0 0
        ≤ (c9Final 2 8 [55, 66, 77]
            [RowOp.piecesRow [[1, 2], [3, 4]], RowOp.setNullRow]).offsets.getD 1 0 ∧
      (c9Final 2 8 [55, 66, 77] [RowOp.piecesRow [[1, 2], [3, 4]], RowOp.setNullRow]).offsets.getD 1 0
        ≤ (c9Final 2 8 [55, 66, 77]
            [RowOp.piecesRow [[1, 2], [3, 4]], RowOp.setNullRow]).offsets.getD 2 0) ∧
    (c9Final 2 8 [55, 66, 77] [RowOp.piecesRow [[1, 2], [3, 4]], RowOp.setNullRow]).offsets.getD 2 0
        = (c9Final 2 8 [55, 66, 77] [RowOp.piecesRow [[1, 2], [3, 4]], RowOp.setNullRow]).bytes.length := by
  have h := c9_offsets_wellformed 2 8 [55, 66, 77]
    [RowOp.piecesRow [[1, 2], [3, 4]], RowOp.setNullRow] (by decide) (by decide)
  exact ⟨h.1, h.2.1, ⟨h.2.2.1 0 (by omega), h.2.2.1 1 (by omega)⟩, h.2.2.2⟩

lemma range_map_getD_eq_drop_take (l : List Nat) (s n : Nat) (h : s + n ≤ l.length) :
    (List.range n).map (fun i => l.getD (s + i) 0) = (l.drop s).take n := by
  apply List.ext_getElem
  · simp
    omega
  · intro j h1 h2
    have hj : j < n := by simpa using h1
    have hsj : s + j < l.length := by omega
    simp [List.getD_eq_getElem?_getD, List.getElem?_eq_getElem hsj]

/-- C6 counterexample: the claim that both the cache-copy path and the
direct-read path record the I/O count and byte-count statistics fails
on the cache path: a read fully contained in the cache window leaves
the statistics untouched (`ORCHdfsFileStream::read` only copies via
`memcpy`; only `doRead` updates `_stats`). -/
theorem c6_counterexample :
    canUseCacheBuffer cexStream 0 1 = true ∧
    ¬ recordsStats ⟨0, 0⟩ (cexStream.read ⟨0, 0⟩ 1 0).2 1 := by
  constructor
  · rfl
  · intro hrec
    have h2 : (cexStream.read ⟨0, 0⟩ 1 0).2 = ⟨0, 0⟩ := rfl
    rw [h2] at hrec
    exact absurd hrec.1 (by decide)

/-- C6 (amended): a `read(buf, length, offset)` call whose range is
fully contained in the non-empty cache window is served by copying the
corresponding slice of the cache and leaves the statistics unchanged;
any other call issues a direct physical read, which records the I/O
count and the byte count. -/
theorem c6_read_paths (fs : ORCHdfsFileStream) (stats : HdfsScanStats)
    (length offset : Nat) :
    (canUseCacheBuffer fs offset length = true →
      fs.read stats length offset =
        ((fs.cache_buffer.drop (offset - fs.cache_offset)).take length, stats)) ∧
    (canUseCacheBuffer fs offset length = false →
      fs.read stats length offset =
        ((List.range length).map (fun i => fs.fileData (offset + i)),
         ⟨stats.io_count + 1, stats.bytes_read + length⟩)) := by
  constructor
  · intro hc
    have hb : fs.cache_offset ≤ offset ∧
        offset + length ≤ fs.cache_offset + fs.cache_buffer.length := by
      have := hc
      simp only [canUseCacheBuffer, Bool.and_eq_true, bne_iff_ne, decide_eq_true_eq] at this
      exact ⟨this.1.2, this.2⟩
    have hle : (offset - fs.cache_offset) + length ≤ fs.cache_buffer.length := by omega
    simp only [ORCHdfsFileStream.read, hc, if_true]
    rw [range_map_getD_eq_drop_take _ _ _ hle]
  · intro hc
    simp [ORCHdfsFileStream.read, doRead, hc]

/-- C6 witness: the two read paths of the amended theorem at concrete
inputs — a cached read of bytes `[8, 9]` with statistics unchanged, and
an uncached read that records one I/O of two bytes. -/
theorem c6_read_paths_witness :
    cexStream.read ⟨0, 0⟩ 2 1 = ([8, 9], ⟨0, 0⟩) ∧
    cexStream.read ⟨0, 0⟩ 2 5 = ([0, 0], ⟨1, 2⟩) := by
  constructor
  · have h := (c6_read_paths cexStream ⟨0, 0⟩ 2 1).1 (by decide)
    rw [h]
    rfl
  · have h := (c6_read_paths cexStream ⟨0, 0⟩ 2 5).2 (by decide)
    rw [h]
    rfl

/-- C1 counterexample: with an empty min/max tuple descriptor and two
conjuncts — one evaluating to logical false on both reference rows, one
evaluating to logical true — the code skips the row group (it returns
true on the first conjunct that is false on both rows), yet not every
min-max predicate is unsatisfiable against both rows, refuting the
claimed "skipped iff every predicate is unsatisfiable". -/
theorem c1_counterexample :
    filterOnPickRowGroup true [] [predAlwaysFalse, predAlwaysTrue] = true ∧
    ¬ (∀ p ∈ [predAlwaysFalse, predAlwaysTrue], p [] = 0 ∧ p [] = 0) := by
  constructor
  · rfl
  · intro h
    have := h predAlwaysTrue (by simp)
    simp [predAlwaysTrue] at this

/-- C1 (amended): while a min/max predicate descriptor is present and
the statistics of the row group resolve to the all-mins and all-maxes
reference rows, the row group is skipped if and only if SOME min-max
predicate is unsatisfiable — evaluates to logical false — against both
reference rows. -/
theorem c1_minmax_skip_iff (slots : List MinMaxSlot) (preds : List (List Val → Int))
    (minRow maxRow : List Val) (h : buildMinMaxRows slots = some (minRow, maxRow)) :
    filterOnPickRowGroup true slots preds = true ↔
      ∃ p ∈ preds, p minRow = 0 ∧ p maxRow = 0 := by
  simp [filterOnPickRowGroup, filterMinMax, h, List.any_eq_true]

/-- C1 witness: the amended theorem at the empty slot list and a single
always-false conjunct, with the rows-resolution hypothesis discharged
by computation. -/
theorem c1_minmax_skip_iff_witness :
    filterOnPickRowGroup true [] [predAlwaysFalse] = true ↔
      ∃ p ∈ [predAlwaysFalse], p [] = 0 ∧ p [] = 0 :=
  c1_minmax_skip_iff [] [predAlwaysFalse] [] [] rfl

/-- C2: for every stripe, `filterOnPickStringDictionary` skips the
stripe if and only if some qualifying dictionary-encoded filter slot —
dictionary present with cardinality + 1 entries of the offsets array
not exceeding the chunk size — has conjuncts that reject every distinct
dictionary value (char values with trailing spaces stripped) plus the
one trailing implicit null. -/
theorem c2_dict_filter_skip_iff (chunk_size : Nat) (slots : List DictFilterSlot) :
    filterOnPickStringDictionary chunk_size slots = true ↔
      ∃ s ∈ slots, ∃ d, s.dict = some d ∧ d.length + 1 ≤ chunk_size ∧
        ∀ v ∈ dictValueChunk s.isChar d, s.pred v = false := by
  rw [filterOnPickStringDictionary, List.any_eq_true]
  constructor
  · rintro ⟨s, hs, hcond⟩
    refine ⟨s, hs, ?_⟩
    cases hd : s.dict with
    | none => rw [hd] at hcond; simp at hcond
    | some d =>
      rw [hd] at hcond
      by_cases hsize : chunk_size < d.length + 1
      · simp [hsize] at hcond
      · refine ⟨d, rfl, by omega, ?_⟩
        simp only [hsize, if_false, beq_iff_eq, List.length_eq_zero] at hcond
        intro v hv
        by_contra hpv
        have hmem : v ∈ evalConjunctsFilter s.pred (dictValueChunk s.isChar d) := by
          simp [evalConjunctsFilter, List.mem_filter, hv]
          exact Bool.of_not_eq_false hpv
        rw [hcond] at hmem
        simp at hmem
  · rintro ⟨s, hs, d, hd, hsize, hrej⟩
    refine ⟨s, hs, ?_⟩
    rw [hd]
    have hnil : evalConjunctsFilter s.pred (dictValueChunk s.isChar d) = [] := by
      rw [evalConjunctsFilter, List.filter_eq_nil_iff]
      intro v hv
      simp [hrej v hv]
    have hlt : ¬ chunk_size < d.length + 1 := by omega
    simp [hnil, hlt]

lemma ubStep_some_key (off : Nat) (acc : Option (Nat × Nat)) (e : Nat × Nat)
    (hacc : ∀ b, acc = some b → off < b.1) :
    ∀ c, ubStep off acc e = some c → off < c.1 := by
  intro c hc
  by_cases h : off < e.1
  · cases acc with
    | none =>
      simp [ubStep, h] at hc
      exact hc ▸ h
    | some b =>
      by_cases h2 : e.1 < b.1
      · simp [ubStep, h, h2] at hc
        exact hc ▸ h
      · simp [ubStep, h, h2] at hc
        exact hc ▸ hacc b rfl
  · simp [ubStep, h] at hc
    exact hacc c hc

lemma ubStep_none (off : Nat) (acc : Option (Nat × Nat)) (e : Nat × Nat)
    (h : ubStep off acc e = none) : acc = none ∧ ¬ off < e.1 := by
  by_cases hlt : off < e.1
  · cases acc with
    | none => simp [ubStep, hlt] at h
    | some b =>
      by_cases h2 : e.1 < b.1 <;> simp [ubStep, hlt, h2] at h
  · simp [ubStep, hlt] at h
    exact ⟨h, hlt⟩

lemma ubStep_some_src (off : Nat) (acc : Option (Nat × Nat)) (e : Nat × Nat) :
    ∀ c, ubStep off acc e = some c → acc = some c ∨ c = e := by
  intro c hc
  by_cases h : off < e.1
  · cases acc with
    | none =>
      simp [ubStep, h] at hc
      exact Or.inr hc.symm
    | some b =>
      by_cases h2 : e.1 < b.1
      · simp [ubStep, h, h2] at hc
        exact Or.inr hc.symm
      · simp [ubStep, h, h2] at hc
        exact Or.inl (by rw [hc])
  · simp [ubStep, h] at hc
    exact Or.inl hc

lemma ubStep_keeps_head (off : Nat) (acc : Option (Nat × Nat)) (e : Nat × Nat)
    (h : off < e.1) : ∃ c, ubStep off acc e = some c ∧ c.1 ≤ e.1 := by
  cases acc with
  | none => exact ⟨e, by simp [ubStep, h], Nat.le_refl _⟩
  | some b =>
    by_cases h2 : e.1 < b.1
    · exact ⟨e, by simp [ubStep, h, h2], Nat.le_refl _⟩
    · exact ⟨b, by simp [ubStep, h, h2], by omega⟩

lemma ubStep_keeps_acc (off : Nat) (acc : Option (Nat × Nat)) (e : Nat × Nat) :
    ∀ b, acc = some b → ∃ c, ubStep off acc e = some c ∧ c.1 ≤ b.1 := by
  intro b hb
  subst hb
  by_cases h : off < e.1
  · by_cases h2 : e.1 < b.1
    · exact ⟨e, by simp [ubStep, h, h2], by omega⟩
    · exact ⟨b, by simp [ubStep, h, h2], Nat.le_refl _⟩
  · exact ⟨b, by simp [ubStep, h], Nat.le_refl _⟩

lemma ubFoldl_spec (off : Nat) (entries : List (Nat × Nat)) :
    ∀ acc : Option (Nat × Nat),
      (∀ b, acc = some b → off < b.1) →
      ((entries.foldl (ubStep off) acc = none →
          acc = none ∧ ∀ e ∈ entries, ¬ off < e.1) ∧
       (∀ q, entries.foldl (ubStep off) acc = some q →
          off < q.1 ∧ (acc = some q ∨ q ∈ entries) ∧
          (∀ e ∈ entries, off < e.1 → q.1 ≤ e.1) ∧
          (∀ b, acc = some b → q.1 ≤ b.1))) := by
  induction entries with
  | nil =>
    intro acc hacc
    constructor
    · intro h
      exact ⟨h, by simp⟩
    · intro q hq
      simp only [List.foldl_nil] at hq
      refine ⟨hacc q hq, Or.inl hq, by simp, fun b hb => ?_⟩
      rw [hq] at hb
      injection hb with hqb
      rw [hqb]
  | cons e rest ih =>
    intro acc hacc
    have hacc1 : ∀ b, ubStep off acc e = some b → off < b.1 :=
      ubStep_some_key off acc e hacc
    have hstep : (e :: rest).foldl (ubStep off) acc = rest.foldl (ubStep off) (ubStep off acc e) :=
      rfl
    constructor
    · intro h
      rw [hstep] at h
      obtain ⟨hnone, hrest⟩ := (ih (ubStep off acc e) hacc1).1 h
      obtain ⟨haccn, hne⟩ := ubStep_none off acc e hnone
      refine ⟨haccn, fun x hx => ?_⟩
      rcases List.mem_cons.mp hx with hxe | hxr
      · rw [hxe]; exact hne
      · exact hrest x hxr
    · intro q hq
      rw [hstep] at hq
      obtain ⟨hkey, hsrc, hmin, hle⟩ := ((ih (ubStep off acc e) hacc1).2) q hq
      refine ⟨hkey, ?_, ?_, ?_⟩
      · rcases hsrc with hqacc | hqrest
        · rcases ubStep_some_src off acc e q hqacc with h1 | h1
          · exact Or.inl h1
          · exact Or.inr (by rw [h1]; exact List.mem_cons_self e rest)
        · exact Or.inr (List.mem_cons_of_mem e hqrest)
      · intro x hx hxk
        rcases List.mem_cons.mp hx with hxe | hxr
        · subst hxe
          obtain ⟨c, hc, hck⟩ := ubStep_keeps_head off acc x hxk
          have := hle c hc
          omega
        · exact hmin x hxr hxk
      · intro b hb
        obtain ⟨c, hc, hck⟩ := ubStep_keeps_acc off acc e b hb
        have := hle c hc
        omega

lemma mapUpperBound_none (entries : List (Nat × Nat)) (off : Nat)
    (h : mapUpperBound entries off = none) : ∀ e ∈ entries, ¬ off < e.1 :=
  ((ubFoldl_spec off entries none (by intro b hb; cases hb)).1 h).2

lemma mapUpperBound_some (entries : List (Nat × Nat)) (off : Nat) (q : Nat × Nat)
    (h : mapUpperBound entries off = some q) :
    off < q.1 ∧ q ∈ entries ∧ (∀ e ∈ entries, off < e.1 → q.1 ≤ e.1) := by
  obtain ⟨hkey, hsrc, hmin, _⟩ :=
    (ubFoldl_spec off entries none (by intro b hb; cases hb)).2 q h
  refine ⟨hkey, ?_, hmin⟩
  rcases hsrc with h1 | h1
  · cases h1
  · exact h1

/-- C3 counterexample: with the non-overlapping assigned ranges
`[5, 5)` (empty) and `[0, 10)`, the stripe at byte offset 3 is
contained in the assigned range `[0, 10)`, yet the predecessor lookup
finds the empty range's end key 5 first and skips the stripe —
refuting the claimed "skipped iff contained in no assigned range"
under non-overlap alone. -/
theorem c3_counterexample :
    List.Pairwise rangesDisjoint [⟨5, 0⟩, ⟨0, 10⟩] ∧
    (⟨0, 10⟩ : THdfsScanRange) ∈ [(⟨5, 0⟩ : THdfsScanRange), ⟨0, 10⟩] ∧
    inScanRange ⟨0, 10⟩ 3 ∧
    filterOnOpeningStripe [⟨5, 0⟩, ⟨0, 10⟩] 3 = true := by
  refine ⟨?_, by decide, ?_, by decide⟩
  · constructor
    · intro r hr
      simp only [List.mem_singleton] at hr
      subst hr
      intro x hx
      simp only [inScanRange] at hx
      omega
    · exact List.pairwise_singleton _ _
  · simp only [inScanRange]
    omega

/-- C3 (amended): when the assigned scan ranges are non-overlapping
and each is non-empty (positive length), the stripe-opening hook skips
the stripe if and only if the stripe's starting byte offset is
contained in none of the ranges; under those preconditions the
predecessor lookup keyed by range end decides containment correctly. -/
theorem c3_stripe_skip_iff (ranges : List THdfsScanRange) (off : Nat)
    (hpos : ∀ r ∈ ranges, 0 < r.length)
    (hdisj : List.Pairwise rangesDisjoint ranges) :
    filterOnOpeningStripe ranges off = true ↔ ∀ r ∈ ranges, ¬ inScanRange r off := by
  have hsym : Symmetric rangesDisjoint := by
    intro a b hab x hx
    exact hab x ⟨hx.2, hx.1⟩
  constructor
  · intro hskip r hr hin
    obtain ⟨hin1, hin2⟩ := hin
    have hentry : (r.offset + r.length, r.offset) ∈ scanRangeEntries ranges :=
      List.mem_map_of_mem _ hr
    cases hub : mapUpperBound (scanRangeEntries ranges) off with
    | none =>
      exact (mapUpperBound_none _ _ hub _ hentry) hin2
    | some q =>
      obtain ⟨hqk, hqmem, hqmin⟩ := mapUpperBound_some _ _ _ hub
      have hcond : ¬ (q.2 ≤ off ∧ off < q.1) := by
        intro hc
        rw [filterOnOpeningStripe, hub] at hskip
        simp [hc] at hskip
      have hq2off : off < q.2 := by
        rcases Nat.lt_or_ge off q.2 with h | h
        · exact h
        · exact absurd ⟨h, hqk⟩ hcond
      obtain ⟨r', hr', hq⟩ := List.mem_map.mp hqmem
      have hq1 : q.1 = r'.offset + r'.length := by rw [← hq]
      have hq2 : q.2 = r'.offset := by rw [← hq]
      have hmin := hqmin _ hentry hin2
      have hrne : r' ≠ r := by
        intro hEq
        rw [hEq] at hq2
        omega
      have hx1 : inScanRange r' r'.offset := by
        have := hpos r' hr'
        exact ⟨Nat.le_refl _, by omega⟩
      have hx2 : inScanRange r r'.offset := by
        have hlt : r'.offset < r'.offset + r'.length := by
          have := hpos r' hr'
          omega
        exact ⟨by omega, by omega⟩
      exact (List.Pairwise.forall hsym hdisj hr' hr hrne) r'.offset ⟨hx1, hx2⟩
  · intro hnone
    rw [filterOnOpeningStripe]
    cases hub : mapUpperBound (scanRangeEntries ranges) off with
    | none => rfl
    | some q =>
      obtain ⟨hqk, hqmem, _⟩ := mapUpperBound_some _ _ _ hub
      obtain ⟨r', hr', hq⟩ := List.mem_map.mp hqmem
      have hq1 : q.1 = r'.offset + r'.length := by rw [← hq]
      have hq2 : q.2 = r'.offset := by rw [← hq]
      have hcond : ¬ (q.2 ≤ off ∧ off < q.1) := by
        intro hc
        exact hnone r' hr' ⟨by omega, by omega⟩
      simp [hcond]

/-- C3 witness: the amended theorem at the two adjacent positive
ranges `[0, 10)` and `[10, 15)` and stripe offset 12, contained in the
second range, with both preconditions discharged. -/
theorem c3_stripe_skip_iff_witness :
    filterOnOpeningStripe [⟨0, 10⟩, ⟨10, 5⟩] 12 = true ↔
      ∀ r ∈ [(⟨0, 10⟩ : THdfsScanRange), ⟨10, 5⟩], ¬ inScanRange r 12 := by
  apply c3_stripe_skip_iff
  · decide
  · constructor
    · intro r hr
      simp only [List.mem_singleton] at hr
      subst hr
      intro x hx
      simp only [inScanRange] at hx
      omega
    · exact List.pairwise_singleton _ _

lemma getColumnBySlotId_cons (p : SlotId × List Int) (t : ChunkModel) (s : SlotId) :
    getColumnBySlotId (p :: t) s = if p.1 == s then p.2 else getColumnBySlotId t s := by
  unfold getColumnBySlotId
  by_cases h : (p.1 == s) = true
  · rw [List.find?_cons_of_pos t (show ((fun q : SlotId × List Int => q.1 == s) p) = true from h)]
    simp [h]
  · have h' : ¬ ((fun q : SlotId × List Int => q.1 == s) p) = true := by simpa using h
    rw [List.find?_cons_of_neg t h']
    simp [h]

lemma setColumnBySlotId_cons (p : SlotId × List Int) (t : ChunkModel) (s : SlotId)
    (v : List Int) :
    setColumnBySlotId (p :: t) s v =
      (if p.1 == s then (p.1, v) else p) :: setColumnBySlotId t s v := by
  simp only [setColumnBySlotId, List.map_cons]

lemma map_fst_setColumnBySlotId (c : ChunkModel) (s : SlotId) (v : List Int) :
    (setColumnBySlotId c s v).map Prod.fst = c.map Prod.fst := by
  induction c with
  | nil => rfl
  | cons p t ih =>
    rw [setColumnBySlotId_cons, List.map_cons, List.map_cons, ih]
    by_cases h : (p.1 == s) = true <;> simp [h]

lemma getColumnBySlotId_set_eq (c : ChunkModel) (s : SlotId) (v : List Int)
    (h : s ∈ c.map Prod.fst) :
    getColumnBySlotId (setColumnBySlotId c s v) s = v := by
  induction c with
  | nil => simp at h
  | cons p t ih =>
    rw [setColumnBySlotId_cons]
    by_cases hp : (p.1 == s) = true
    · rw [if_pos hp, getColumnBySlotId_cons]
      simp [hp]
    · rw [if_neg hp, getColumnBySlotId_cons, if_neg hp]
      apply ih
      simp only [List.map_cons, List.mem_cons] at h
      rcases h with h | h
      · exact absurd (by simp [h]) hp
      · exact h

lemma getColumnBySlotId_set_ne (c : ChunkModel) (s t0 : SlotId) (v : List Int)
    (h : s ≠ t0) :
    getColumnBySlotId (setColumnBySlotId c s v) t0 = getColumnBySlotId c t0 := by
  induction c with
  | nil => rfl
  | cons p tl ih =>
    rw [setColumnBySlotId_cons]
    by_cases hp : (p.1 == s) = true
    · rw [if_pos hp, getColumnBySlotId_cons, getColumnBySlotId_cons]
      have hps : p.1 = s := by simpa using hp
      have : (p.1 == t0) = false := by
        simp [hps]
        exact h
      simp [this, ih]
    · rw [if_neg hp, getColumnBySlotId_cons, getColumnBySlotId_cons]
      by_cases ht : (p.1 == t0) = true <;> simp [ht, ih]

lemma convert_to_output_inv (order : List SlotId) (out ck : ChunkModel)
    (hnodup : order.Nodup)
    (hin : ∀ s ∈ order, s ∈ out.map Prod.fst) :
    ((convert_to_output out ck order).1.map Prod.fst = out.map Prod.fst) ∧
    (∀ s ∈ order,
      getColumnBySlotId (convert_to_output out ck order).1 s = getColumnBySlotId ck s) ∧
    (∀ s, s ∉ order →
      getColumnBySlotId (convert_to_output out ck order).1 s = getColumnBySlotId out s) := by
  induction order generalizing out ck with
  | nil => exact ⟨rfl, by simp, fun s _ => rfl⟩
  | cons a rest ih =>
    have hstep : convert_to_output out ck (a :: rest) =
        convert_to_output (setColumnBySlotId out a (getColumnBySlotId ck a))
          (setColumnBySlotId ck a (getColumnBySlotId out a)) rest := rfl
    have hanotin : a ∉ rest := (List.nodup_cons.mp hnodup).1
    have hnodup' : rest.Nodup := (List.nodup_cons.mp hnodup).2
    have hamem : a ∈ out.map Prod.fst := hin a (List.mem_cons_self a rest)
    have hin' : ∀ s ∈ rest, s ∈ (setColumnBySlotId out a (getColumnBySlotId ck a)).map Prod.fst := by
      intro s hs
      rw [map_fst_setColumnBySlotId]
      exact hin s (List.mem_cons_of_mem a hs)
    obtain ⟨I1, I2, I3⟩ := ih (setColumnBySlotId out a (getColumnBySlotId ck a))
      (setColumnBySlotId ck a (getColumnBySlotId out a)) hnodup' hin'
    refine ⟨?_, ?_, ?_⟩
    · rw [hstep, I1, map_fst_setColumnBySlotId]
    · intro s hs
      rcases List.mem_cons.mp hs with hsa | hsr
      · subst hsa
        rw [hstep, I3 s hanotin, getColumnBySlotId_set_eq out s _ hamem]
      · have hsna : s ≠ a := fun hEq => hanotin (hEq ▸ hsr)
        rw [hstep, I2 s hsr, getColumnBySlotId_set_ne ck a s _ (fun hEq => hsna hEq.symm)]
    · intro s hs
      have hsa : s ≠ a := fun hEq => hs (hEq ▸ List.mem_cons_self a rest)
      have hsr : s ∉ rest := fun hmem => hs (List.mem_cons_of_mem a hmem)
      rw [hstep, I3 s hsr, getColumnBySlotId_set_ne out a s _ (fun hEq => hsa hEq.symm)]

/-- C4: for every caller chunk (whose slot order is the caller-expected
column order), every freshly produced chunk `ck` — in whatever physical
column order the eager/lazy materialization produced it — and every
enumeration order of the caller's slot-id map, the reordering pass
leaves the output with exactly the caller chunk's slot order, and the
column stored under every slot id is `ck`'s column for that slot. -/
theorem c4_output_column_order (out ck : ChunkModel) (order : List SlotId)
    (hout : (out.map Prod.fst).Nodup)
    (horder : order.Perm (out.map Prod.fst)) :
    ((convert_to_output out ck order).1.map Prod.fst = out.map Prod.fst) ∧
    (∀ s ∈ out.map Prod.fst,
      getColumnBySlotId (convert_to_output out ck order).1 s = getColumnBySlotId ck s) := by
  have hnodup : order.Nodup := horder.nodup_iff.mpr hout
  have hin : ∀ s ∈ order, s ∈ out.map Prod.fst := fun s hs => horder.mem_iff.mp hs
  obtain ⟨h1, h2, _⟩ := convert_to_output_inv order out ck hnodup hin
  exact ⟨h1, fun s hs => h2 s (horder.mem_iff.mpr hs)⟩

/-- C4 witness: the reorder theorem at a caller chunk with slot order
[1, 2], a produced chunk stored in the opposite physical order, and the
map enumeration order [2, 1]. -/
theorem c4_output_column_order_witness :
    ((convert_to_output [(1, []), (2, [])] [(2, [5]), (1, [7])] [2, 1]).1.map Prod.fst
        = [(1, ([] : List Int)), (2, [])].map Prod.fst) ∧
    (∀ s ∈ [(1, ([] : List Int)), (2, [])].map Prod.fst,
      getColumnBySlotId (convert_to_output [(1, []), (2, [])] [(2, [5]), (1, [7])] [2, 1]).1 s
        = getColumnBySlotId [(2, [5]), (1, [7])] s) :=
  c4_output_column_order [(1, []), (2, [])] [(2, [5]), (1, [7])] [2, 1]
    (by decide) (by decide)

/-- C5: when a lazy-load context exists, `do_get_next` never returns OK
with a zero-row chunk — a row group whose surviving row count is zero
loops back to the next row-group position instead of being emitted —
and lazy materialization is triggered only for row groups with at least
one surviving row. -/
theorem c5_no_empty_chunk_with_lazy (evs : List ReadEvent) :
    (∀ n, (do_get_next true evs).1 = GetNextResult.okChunk n → 0 < n) ∧
    (∀ n ∈ (do_get_next true evs).2, 0 < n) := by
  induction evs with
  | nil => simp [do_get_next]
  | cons e rest ih =>
    cases e with
    | rgRead s =>
      by_cases hs : s = 0
      · simpa [do_get_next, hs] using ih
      · constructor
        · intro n hn
          simp [do_get_next, hs] at hn
          omega
        · intro n hn
          simp [do_get_next, hs] at hn
          omega
    | eofEv => simp [do_get_next]
    | errEv => simp [do_get_next]

/-- C5 witness: the theorem applied to a stream whose first row group
is filtered down to zero rows and whose second survives with three
rows: the emitted chunk has three rows, hence is non-empty, and the
only lazily materialized row group is the surviving one. -/
theorem c5_no_empty_chunk_with_lazy_witness :
    0 < 3 ∧ 3 ∈ (do_get_next true [ReadEvent.rgRead 0, ReadEvent.rgRead 3, ReadEvent.eofEv]).2 :=
  ⟨(c5_no_empty_chunk_with_lazy [ReadEvent.rgRead 0, ReadEvent.rgRead 3, ReadEvent.eofEv]).1 3
      (by decide),
   by decide⟩
